import Mathlib

/-!
# Verification of the depreldb collocation index against its specification

Shallow embedding of the core data model and algorithms of the
`czcorpus/depreldb` repository (Go), together with theorems settling the
claims of the specification.

Conventions of the embedding:
* Go `float64` values are modelled as exact rationals (`ℚ`); transcendental
  float operations (`math.Log2`, `math.Sqrt`, `math.Log`) are passed in as
  abstract function parameters, since only the shape of the expressions is
  claimed.  Where IEEE special values (`NaN`, `±Inf`) are essential
  (the G² computation), a dedicated `GoFloat` type models them.
* Go machine integers are `ℕ`/`ℤ` with explicit `% 2^32` where a `uint32`
  operation can overflow.
* Go maps used as accumulators are association lists (point lookup and
  insert only), or plain functions where the map is only read back by key.
* Byte slices are `List ℕ` holding byte values.
-/

/-! ## Distance codec (src/record/encoding.go)

`EncodeDistance` / `DecodeDistance` compress a signed decimal distance into
one byte.  Go `math.Round` rounds half away from zero; `goRound` models it
exactly.  The `int32` conversion of the rounded value is modelled exactly
(valid whenever `|10·d| < 2^31`).
-/

/-- Go `math.Round`: round to nearest, ties away from zero. -/
def goRound (q : ℚ) : ℤ :=
  if 0 ≤ q then ⌊q + 1/2⌋ else ⌈q - 1/2⌉

/-- The `EncodeDistance` from src/record/encoding.go: scale by 10, round, clamp
to `[-127, 127]`, map negatives to `0..126` and non-negatives to `128..255`. -/
def EncodeDistance (distance : ℚ) : ℕ :=
  let scaled : ℤ := goRound (distance * 10)
  if scaled < 0 then
    -- Negative: map -127 to -1 -> 0 to 126 (clamping below at -127)
    let scaled2 : ℤ := if scaled < -127 then -127 else scaled
    (-scaled2 - 1).toNat
  else
    -- Positive: map 0 to 127 -> 128 to 255 (clamping above at 127)
    let scaled2 : ℤ := if scaled > 127 then 127 else scaled
    (scaled2 + 128).toNat

/-- The `DecodeDistance` from src/record/encoding.go. -/
def DecodeDistance (encoded : ℕ) : ℚ :=
  if encoded < 128 then
    -- Negative value: 0-127 maps to -0.1 to -12.7
    -(((encoded : ℚ) + 1)) / 10
  else
    -- Positive value: 128-255 maps to 0.0 to +12.7
    ((encoded : ℚ) - 128) / 10

/-! ## Record types and binary grouping keys (src/unnamed/part_002, package record)

`RawTokenFreq` / `RawCollocFreq` with their fixed-width binary grouping
keys.  Go byte arrays are `List ℕ`; `uint32` fields are `ℕ` (kept below
`2^32` by the `% 2^32` in the accumulating operations).
-/

/-- The value of `n` as a `uint32` (Go unsigned overflow semantics). -/
def u32 (n : ℕ) : ℕ := n % 2 ^ 32

/-- Little-endian 4-byte encoding of a `uint32` (Go `binary.LittleEndian.PutUint32`). -/
def uint32LE (n : ℕ) : List ℕ :=
  [n % 256, n / 256 % 256, n / 256 ^ 2 % 256, n / 256 ^ 3 % 256]

/-- Little-endian 2-byte encoding of a `uint16` (Go `binary.LittleEndian.PutUint16`). -/
def uint16LE (n : ℕ) : List ℕ :=
  [n % 256, n / 256 % 256]

structure RawTokenFreq where
  TokenID : ℕ
  PoS : ℕ
  Freq : ℕ
  TextType : ℕ
deriving DecidableEq, Repr

/-- The `BinaryKey`: the 6-byte binary grouping key (`[6]byte` in the source). -/
abbrev BinaryKey : Type := List ℕ

/-- The `RawTokenFreq.GroupingKeyBinary`: layout `[TokenID:4][PoS:1][TextType:1]`. -/
def RawTokenFreq.GroupingKeyBinary (rtf : RawTokenFreq) : BinaryKey :=
  uint32LE rtf.TokenID ++ [rtf.PoS, rtf.TextType]

structure RawCollocFreq where
  Token1ID : ℕ
  PoS1 : ℕ
  Deprel : ℕ
  Token2ID : ℕ
  PoS2 : ℕ
  Freq : ℕ
  AVGDist : ℚ
  TextType : ℕ
deriving DecidableEq, Repr

/-- The `CollBinaryKey`: the 16-byte binary grouping key for collocation data. -/
abbrev CollBinaryKey : Type := List ℕ

/-- The `RawCollocFreq.GroupingKeyBinary`: layout
`[Token1ID:4][PoS1:1][Deprel:2][Token2ID:4][PoS2:1][TextType:1][padding:3]`. -/
def RawCollocFreq.GroupingKeyBinary (rcf : RawCollocFreq) : CollBinaryKey :=
  uint32LE rcf.Token1ID ++ [rcf.PoS1] ++ uint16LE rcf.Deprel
    ++ uint32LE rcf.Token2ID ++ [rcf.PoS2, rcf.TextType] ++ [0, 0, 0]

/-- The `RawCollocFreq.GroupingKeyLemma1Binary`: the 6-byte first-lemma
projection `[Token1ID:4][PoS1:1][TextType:1]`. -/
def RawCollocFreq.GroupingKeyLemma1Binary (rcf : RawCollocFreq) : BinaryKey :=
  uint32LE rcf.Token1ID ++ [rcf.PoS1, rcf.TextType]

/-- The `RawCollocFreq.GroupingKeyLemma2Binary`: the 6-byte second-lemma
projection `[Token2ID:4][PoS2:1][TextType:1]`. -/
def RawCollocFreq.GroupingKeyLemma2Binary (rcf : RawCollocFreq) : BinaryKey :=
  uint32LE rcf.Token2ID ++ [rcf.PoS2, rcf.TextType]

/-! ## Grouping engine (src/storage/resgroup.go)

Go maps keyed by the fixed-width binary keys are association lists with
point lookup and insert.  The zeroing discipline of `add` follows
`src/storage/resgroup.go`; the record fields are those of the current
`record` package (src/unnamed/part_002), whose collocation record carries
a single 16-bit deprel.
-/

/-- Point lookup in a Go map modelled as an association list. -/
def mapLookup {κ ν : Type} [DecidableEq κ] (m : List (κ × ν)) (k : κ) : Option ν :=
  (m.find? (fun kv => decide (kv.1 = k))).map (fun kv => kv.2)

/-- Point insert/overwrite in a Go map modelled as an association list. -/
def mapInsert {κ ν : Type} [DecidableEq κ] (m : List (κ × ν)) (k : κ) (v : ν) :
    List (κ × ν) :=
  if m.any (fun kv => decide (kv.1 = k)) then
    m.map (fun kv => if kv.1 = k then (k, v) else kv)
  else
    m ++ [(k, v)]

structure tokenFreqGrouping where
  groupByPos : Bool
  groupByTT : Bool
  data : List (BinaryKey × RawTokenFreq)

/-- The zeroing step at the head of `tokenFreqGrouping.add`: fields whose
grouping toggle is off are reset to zero before the key is formed. -/
def tokenFreqGrouping.zeroed (rg : tokenFreqGrouping) (f : RawTokenFreq) :
    RawTokenFreq :=
  { f with
    TextType := if rg.groupByTT then f.TextType else 0
    PoS := if rg.groupByPos then f.PoS else 0 }

/-- The binary key under which `tokenFreqGrouping.add` aggregates `f`. -/
def tokenFreqGrouping.keyFor (rg : tokenFreqGrouping) (f : RawTokenFreq) :
    BinaryKey :=
  (rg.zeroed f).GroupingKeyBinary

/-- The `tokenFreqGrouping.add`: zero the untoggled fields, then insert the
entry, summing frequencies (`uint32` addition) on an existing key. -/
def tokenFreqGrouping.add (rg : tokenFreqGrouping) (f0 : RawTokenFreq) :
    tokenFreqGrouping :=
  let f := rg.zeroed f0
  let key := f.GroupingKeyBinary
  match mapLookup rg.data key with
  | none => { rg with data := mapInsert rg.data key f }
  | some curr =>
      { rg with data := mapInsert rg.data key { curr with Freq := u32 (curr.Freq + f.Freq) } }

/-- The `tokenFreqGrouping.get`: Go map read, returning the zero value on a miss. -/
def tokenFreqGrouping.get (rg : tokenFreqGrouping) (key : BinaryKey) :
    RawTokenFreq :=
  (mapLookup rg.data key).getD { TokenID := 0, PoS := 0, Freq := 0, TextType := 0 }

structure collFreqGrouping where
  groupByPos1 : Bool
  groupByPos2 : Bool
  groupByDeprel : Bool
  groupByTT : Bool
  data : List (CollBinaryKey × RawCollocFreq)

/-- The zeroing step at the head of `collFreqGrouping.add`. -/
def collFreqGrouping.zeroed (rg : collFreqGrouping) (f : RawCollocFreq) :
    RawCollocFreq :=
  { f with
    TextType := if rg.groupByTT then f.TextType else 0
    PoS1 := if rg.groupByPos1 then f.PoS1 else 0
    PoS2 := if rg.groupByPos2 then f.PoS2 else 0
    Deprel := if rg.groupByDeprel then f.Deprel else 0 }

/-- The `collFreqGrouping.add`: zero the untoggled fields, then insert the
entry, summing frequencies (`uint32` addition) on an existing key. -/
def collFreqGrouping.add (rg : collFreqGrouping) (f0 : RawCollocFreq) :
    collFreqGrouping :=
  let f := rg.zeroed f0
  let key := f.GroupingKeyBinary
  match mapLookup rg.data key with
  | none => { rg with data := mapInsert rg.data key f }
  | some curr =>
      { rg with data := mapInsert rg.data key { curr with Freq := u32 (curr.Freq + f.Freq) } }

/-! ## Collocation results and the scoring loop (src/unnamed/part_006)

`CalculateMeasures` aggregates raw records into the three groupings and
then, for each grouped pair, joins `F(x)` and `F(y)` by binary key and
computes the association scores.  The transcendental float functions
`math.Log2` and `math.Sqrt` are abstract parameters `log2`, `sqrt`; the
G² score is likewise a parameter here (its IEEE behaviour is analysed
separately on `LLScore`).  String-producing lookups (lemma by id, readable
text type / deprel / pos) are abstract parameters as well.
-/

structure CollMember where
  Value : String
  PoS : String
deriving DecidableEq, Repr

structure Collocation where
  Lemma : CollMember
  Collocate : CollMember
  Deprel : String
  LogDice : ℚ
  TScore : ℚ
  MutualDist : ℚ
  LMI : ℚ
  LogLikelihood : ℚ
  RRFScore : ℚ
  TextType : String
deriving DecidableEq, Repr

/-- The result-building loop at the end of `CalculateMeasures`
(src/unnamed/part_006, lines 454-485): one `Collocation` per entry of the
`F(x,y)` grouping, with `F(x)`/`F(y)` joined by the 6-byte projection keys.
`2*Fxy`, `Fx+Fy` and `Fx*Fy` are `uint32` operations in the source, hence
the `u32`. -/
def calcResults (log2 sqrt : ℚ → ℚ) (llF : ℚ → ℚ → ℚ → ℚ → ℚ)
    (lemmaById : ℕ → String) (posRev ttRead deprelRev : ℕ → String)
    (lemmaValue pos : String) (corpusSize : ℚ)
    (sumFreqs1 sumFreqs2 : tokenFreqGrouping) (sumCollFreqs : collFreqGrouping) :
    List Collocation :=
  sumCollFreqs.data.map (fun kv =>
    let val := kv.2
    let f1 := sumFreqs1.get val.GroupingKeyLemma1Binary
    let f2 := sumFreqs2.get val.GroupingKeyLemma2Binary
    let logDice : ℚ := 14 + log2 ((u32 (2 * val.Freq) : ℚ) / (u32 (f1.Freq + f2.Freq) : ℚ))
    let tscore : ℚ := ((val.Freq : ℚ) - ((f1.Freq : ℚ) * (f2.Freq : ℚ)) / corpusSize)
      / sqrt (val.Freq)
    let lmi : ℚ := (val.Freq : ℚ) * log2 (corpusSize * (val.Freq : ℚ) / (u32 (f1.Freq * f2.Freq) : ℚ))
    let ll : ℚ := llF (val.Freq) (f1.Freq) (f2.Freq) corpusSize
    { Lemma := { Value := lemmaValue, PoS := pos }
      Collocate := { Value := lemmaById val.Token2ID, PoS := posRev val.PoS2 }
      Deprel := deprelRev val.Deprel
      LogDice := logDice
      TScore := tscore
      MutualDist := val.AVGDist
      LMI := lmi
      LogLikelihood := ll
      RRFScore := 0
      TextType := ttRead val.TextType })

/-! ## IEEE special values and the G² computation (src/storage/calc.go)

`LLScore` computes the log-likelihood score with unguarded `math.Log`
calls.  `GoFloat` models the IEEE float values that matter here: finite
values (exact rationals), the two infinities and `NaN`, with Go/IEEE
propagation rules for `+`, `-`, `*`.  `math.Log` is an abstract parameter
constrained only where the analysis needs it (`log 0 = -Inf`).
-/

inductive GoFloat where
  | fin (q : ℚ)
  | posInf
  | negInf
  | nan
deriving DecidableEq, Repr

/-- IEEE addition on `GoFloat`. -/
def GoFloat.add : GoFloat → GoFloat → GoFloat
  | .nan, _ => .nan
  | _, .nan => .nan
  | .fin a, .fin b => .fin (a + b)
  | .posInf, .negInf => .nan
  | .negInf, .posInf => .nan
  | .posInf, _ => .posInf
  | _, .posInf => .posInf
  | .negInf, _ => .negInf
  | _, .negInf => .negInf

/-- IEEE negation on `GoFloat`. -/
def GoFloat.neg : GoFloat → GoFloat
  | .nan => .nan
  | .fin a => .fin (-a)
  | .posInf => .negInf
  | .negInf => .posInf

/-- IEEE subtraction on `GoFloat`. -/
def GoFloat.sub (a b : GoFloat) : GoFloat := a.add b.neg

/-- IEEE multiplication on `GoFloat` (`0 * ±Inf = NaN`). -/
def GoFloat.mul : GoFloat → GoFloat → GoFloat
  | .nan, _ => .nan
  | _, .nan => .nan
  | .fin a, .fin b => .fin (a * b)
  | .fin a, .posInf => if a = 0 then .nan else if 0 < a then .posInf else .negInf
  | .fin a, .negInf => if a = 0 then .nan else if 0 < a then .negInf else .posInf
  | .posInf, .fin b => if b = 0 then .nan else if 0 < b then .posInf else .negInf
  | .negInf, .fin b => if b = 0 then .nan else if 0 < b then .negInf else .posInf
  | .posInf, .posInf => .posInf
  | .posInf, .negInf => .negInf
  | .negInf, .posInf => .negInf
  | .negInf, .negInf => .posInf

instance : Add GoFloat := ⟨GoFloat.add⟩
instance : Sub GoFloat := ⟨GoFloat.sub⟩
instance : Mul GoFloat := ⟨GoFloat.mul⟩

/-- Is the float value finite? -/
def GoFloat.isFinite : GoFloat → Bool
  | .fin _ => true
  | _ => false

/-- The `uint32` subtraction (Go wrap-around semantics). -/
def u32sub (a b : ℕ) : ℕ := (a + 2 ^ 32 - b) % 2 ^ 32

/-- The `LLScore` from src/storage/calc.go: the G² (log-likelihood) score over
the 2x2 contingency table, with no guard on the `math.Log` arguments.
`log` abstracts `math.Log` (as a map from the finite argument to a
`GoFloat`).  `b` and `c` are `uint32` subtractions, `d` is `int64`
arithmetic, exactly as in the source; the final `GIGA NUMBER` debug print
has no effect on the returned value and is omitted. -/
def LLScore (log : ℚ → GoFloat) (fxy fx fy : ℕ) (n : ℤ) : GoFloat :=
  let a : ℚ := (fxy : ℚ)
  let b : ℚ := (u32sub fx fxy : ℚ)
  let c : ℚ := (u32sub fy fxy : ℚ)
  let d : ℚ := ((n - (fx : ℤ) - (fy : ℤ) + (fxy : ℤ) : ℤ) : ℚ)
  GoFloat.fin 2 *
    (GoFloat.fin a * log a + GoFloat.fin b * log b + GoFloat.fin c * log c
      + GoFloat.fin d * log d
      - GoFloat.fin (a + b) * log (a + b) - GoFloat.fin (a + c) * log (a + c)
      - GoFloat.fin (b + d) * log (b + d) - GoFloat.fin (c + d) * log (c + d)
      + GoFloat.fin (a + b + c + d) * log (a + b + c + d))

/-! ## Reciprocal Rank Fusion (src/storage/calc.go, SortByRRF)

Go's `sort.Slice(less)` with `less = (a.X > b.X)` produces a descending
order; it is modelled by `List.mergeSort` with the complementary `≤`
comparator.  The `scores` map (`map[string]float64`, reading a missing key
as 0 and accumulating with `+=`) is modelled as a function `String → ℚ`
updated pointwise.  `Collocation.Hash` sha1-hashes the format string
`"%s|%s|%t|%s|%s"` of `(lemma, lemma pos, mutualDist > 0, collocate,
textType)`; the embedding uses that pre-image string itself as the
identity (the hash is an injective fingerprint of it). -/

def Collocation.hashData (c : Collocation) : String :=
  c.Lemma.Value ++ "|" ++ c.Lemma.PoS ++ "|"
    ++ (if 0 < c.MutualDist then "true" else "false") ++ "|"
    ++ c.Collocate.Value ++ "|" ++ c.TextType

/-- Go zero value of `Collocation` (never read by the loop in range). -/
def dfltColl : Collocation :=
  { Lemma := { Value := "", PoS := "" }, Collocate := { Value := "", PoS := "" }
    Deprel := "", LogDice := 0, TScore := 0, MutualDist := 0, LMI := 0
    LogLikelihood := 0, RRFScore := 0, TextType := "" }

/-- The RRF constant `k = 60` (`rrfConstantD` in the source). -/
def rrfConstantD : ℚ := 60

/-- One `scores[key] += v` update of the Go score map. -/
def bumpScore (m : String → ℚ) (k : String) (v : ℚ) : String → ℚ :=
  fun h => if h = k then m h + v else m h

/-- The score-accumulation loop of `SortByRRF`: for each rank `i`, each of
the four ranked lists contributes `1 / (60 + i)` to the entry of the item
at its position `i`. -/
def rrfScores (n : ℕ) (l1 l2 l3 l4 : List Collocation) : String → ℚ :=
  (List.range n).foldl
    (fun acc i =>
      bumpScore
        (bumpScore
          (bumpScore
            (bumpScore acc ((l1.getD i dfltColl).hashData) (1 / (rrfConstantD + (i : ℚ))))
            ((l2.getD i dfltColl).hashData) (1 / (rrfConstantD + (i : ℚ))))
          ((l3.getD i dfltColl).hashData) (1 / (rrfConstantD + (i : ℚ))))
        ((l4.getD i dfltColl).hashData) (1 / (rrfConstantD + (i : ℚ))))
    (fun _ => 0)

/-- The `SortByRRF` from src/storage/calc.go: rank the items independently by
logDice, LMI, tScore and G², accumulate the reciprocal-rank scores keyed
by the item hash, set each item's `RRFScore`, and sort descending by it. -/
def SortByRRF (items : List Collocation) : List Collocation :=
  let list1 := items.mergeSort (fun a b => decide (b.LogDice ≤ a.LogDice))
  let list2 := items.mergeSort (fun a b => decide (b.LMI ≤ a.LMI))
  let list3 := items.mergeSort (fun a b => decide (b.TScore ≤ a.TScore))
  let list4 := items.mergeSort (fun a b => decide (b.LogLikelihood ≤ a.LogLikelihood))
  let scores := rrfScores items.length list1 list2 list3 list4
  let withScores := items.map (fun it => { it with RRFScore := scores it.hashData })
  withScores.mergeSort (fun a b => decide (b.RRFScore ≤ a.RRFScore))

/-- The zero-based rank of `x` among `items` under measure `val`, ranking
descending: the number of items scoring strictly higher. -/
def rankOf (items : List Collocation) (val : Collocation → ℚ) (x : Collocation) : ℕ :=
  (items.filter (fun y => decide (val x < val y))).length

/-! ## Code tables and import records (src/record: valmapping/part_001, types.go, input.go)

`%x` formatting of a byte is lowercase hex without padding (`hexStr`).
The token's positional-attribute accesses (`PosAttrByIndex`) are modelled
by direct fields of `Token`; the column indices are configuration
plumbing. -/

/-- Go `fmt.Sprintf("%x", n)`: lowercase hexadecimal. -/
def hexStr (n : ℕ) : String := String.mk (Nat.toDigits 16 n)

/-- Go `strings.ToUpper` (per code point). -/
def goToUpper (s : String) : String := String.mk (s.data.map Char.toUpper)

/-- Go `strings.ToLower` (per code point). -/
def goToLower (s : String) : String := String.mk (s.data.map Char.toLower)

/-- Go `strings.TrimSpace`: drop leading and trailing whitespace. -/
def goTrim (s : String) : String :=
  String.mk (((s.data.dropWhile Char.isWhitespace).reverse.dropWhile
    Char.isWhitespace).reverse)

/-- Lookup in a Go `map[string]K` table. -/
def lookupStr (m : List (String × ℕ)) (k : String) : Option ℕ :=
  (m.find? (fun kv => decide (kv.1 = k))).map (fun kv => kv.2)

/-- The `UDPoSMapping` (src/unnamed/part_001): the closed UD POS byte table. -/
def UDPoSMapping : List (String × ℕ) :=
  [("ADJ", 0x01), ("ADP", 0x02), ("ADV", 0x03), ("AUX", 0x04), ("CCONJ", 0x05),
   ("DET", 0x06), ("INTJ", 0x07), ("NOUN", 0x08), ("NUM", 0x09), ("PRON", 0x0a),
   ("PROPN", 0x0b), ("PUNCT", 0x0c), ("SCONJ", 0x0d), ("SYM", 0x0e), ("VERB", 0x0f),
   ("X", 0x10), ("PART", 0x11), ("SCONJ|AUX", 0x12), ("PRON|AUX", 0x13),
   ("ADP|PRON", 0x14), ("VERB|AUX", 0x15), ("PROPN|AUX", 0x16), ("NOUN|NOUN", 0x17),
   ("X|AUX", 0x18), ("NOUN|AUX", 0x19), ("PROPN|NOUN", 0x1a), ("PART|AUX", 0x1b),
   ("PROPN|PROPN", 0x1c)]

/-- The base `UDDeprelMapping` (src/unnamed/part_001): 16-bit deprel codes. -/
def UDDeprelMapping : List (String × ℕ) :=
  [("acl", 0x0001), ("acl:relcl", 0x0002), ("advcl", 0x0003), ("advmod", 0x0004),
   ("advmod:emph", 0x0005), ("amod", 0x0006), ("appos", 0x0007), ("aux", 0x0008),
   ("aux:pass", 0x0009), ("case", 0x000a), ("cc", 0x000b), ("ccomp", 0x000c),
   ("clf", 0x000d), ("compound", 0x000e), ("conj", 0x000f), ("cop", 0x0010),
   ("csubj", 0x0011), ("csubj:pass", 0x0012), ("dep", 0x0013), ("det", 0x0014),
   ("det:numgov", 0x0015), ("det:nummod", 0x0016), ("discourse", 0x0017),
   ("dislocated", 0x0018), ("expl:pass", 0x0019), ("expl:pv", 0x001a),
   ("fixed", 0x001b), ("flat", 0x001c), ("flat:foreign", 0x001d),
   ("goeswith", 0x001e), ("iobj", 0x001f), ("list", 0x0020), ("mark", 0x0021),
   ("nmod", 0x0022), ("nsubj", 0x0023), ("nsubj:pass", 0x0024), ("nummod", 0x0025),
   ("nummod:gov", 0x0026), ("obj", 0x0027), ("obl", 0x0028), ("obl:arg", 0x0029),
   ("orphan", 0x002a), ("parataxis", 0x002b), ("punct", 0x002c),
   ("reparandum", 0x002d), ("root", 0x002e), ("vocative", 0x002f), ("xcomp", 0x0030)]

structure UDPoS where
  Readable : String
  Raw : ℕ
deriving DecidableEq, Repr

def UDPoS.Byte (pos : UDPoS) : ℕ := pos.Raw

/-- The `UDPoS.IsValid` (src/record/types.go): `0x01 ≤ Raw ≤ 0x10`. -/
def UDPoS.IsValid (pos : UDPoS) : Bool :=
  decide (0x01 ≤ pos.Raw) && decide (pos.Raw ≤ 0x10)

/-- The `ImportUDPoS` (src/record/types.go): table lookup after upper-casing;
a miss yields the unknown code 0. -/
def ImportUDPoS (v : String) : UDPoS :=
  match lookupStr UDPoSMapping (goToUpper v) with
  | none => { Readable := v, Raw := 0x00 }
  | some repr => { Readable := v, Raw := repr }

structure UDDeprel where
  Readable : String
  Raw : ℕ
deriving DecidableEq, Repr

/-- The low byte of the 16-bit deprel code (the `Byte()` accessor used when
forming single-token keys). -/
def UDDeprel.Byte (d : UDDeprel) : ℕ := d.Raw % 256

/-- The `ImportUDDeprel` (src/record/types.go): table lookup after
lower-casing; a miss yields the unknown code 0. -/
def ImportUDDeprel (v : String) : UDDeprel :=
  match lookupStr UDDeprelMapping (goToLower v) with
  | none => { Readable := v, Raw := 0x00 }
  | some repr => { Readable := v, Raw := repr }

structure TextTypeV where
  Readable : String
  Raw : ℕ
deriving DecidableEq, Repr

def TextTypeV.Byte (tt : TextTypeV) : ℕ := tt.Raw

/-- A content token of an imported path.  In the source this is a
`vertigo.Token` whose lemma / pos / deprel columns are read through
configured indices and whose text type comes from structural attributes;
the four attributes are modelled as direct fields. -/
structure Token where
  Lemma : String
  PoS : String
  Deprel : String
  TextType : String
deriving DecidableEq, Repr

structure TokenFreq where
  Lemma : String
  PoS : UDPoS
  Deprel : UDDeprel
  Freq : ℤ
  TextType : TextTypeV
deriving DecidableEq, Repr

/-- The `TokenFreq.Key` (src/record/input.go): the grouping key string
`"%x|%s|%x|%x"` over (textType, lemma, pos, deprel-byte), with `-` for the
pos field when the pos is invalid. -/
def TokenFreq.Key (otf : TokenFreq) : String :=
  if otf.PoS.IsValid then
    hexStr otf.TextType.Byte ++ "|" ++ otf.Lemma ++ "|" ++ hexStr otf.PoS.Byte
      ++ "|" ++ hexStr otf.Deprel.Byte
  else
    hexStr otf.TextType.Byte ++ "|" ++ otf.Lemma ++ "|-|" ++ hexStr otf.Deprel.Byte

/-- The `TokenFreq.UpdateFreq` (src/record/input.go, lines 76-78).  In Go this
method has a VALUE receiver: it increments the frequency of a copy of the
receiver and returns nothing, so the caller's value is left unchanged.
The embedding returns the updated copy; call sites discard it exactly as
the Go caller's value ignores it. -/
def TokenFreq.UpdateFreq (otf : TokenFreq) (freq : ℤ) : TokenFreq :=
  { otf with Freq := otf.Freq + freq }

structure CollocFreq where
  Lemma1 : String
  PoS1 : UDPoS
  Deprel1 : UDDeprel
  Lemma2 : String
  PoS2 : UDPoS
  Deprel2 : UDDeprel
  Freq : ℤ
  AVGDist : ℚ
  TextType : TextTypeV
deriving DecidableEq, Repr

/-- The `CollocFreq.UpdateFreqAndDist` (src/record/input.go): pointer receiver;
folds the new distance into the running mean, then adds the frequency. -/
def CollocFreq.UpdateFreqAndDist (cf : CollocFreq) (freq dist : ℤ) : CollocFreq :=
  { cf with
    AVGDist := ((cf.Freq : ℚ) * cf.AVGDist + (dist : ℚ)) / ((cf.Freq : ℚ) + 1)
    Freq := cf.Freq + freq }

/-- The `CollocFreq.Key` (src/record/input.go): grouping key string over both
tokens; the two pos fields are dropped together when either is invalid. -/
def CollocFreq.Key (cf : CollocFreq) : String :=
  if cf.PoS1.IsValid && cf.PoS2.IsValid then
    hexStr cf.TextType.Byte ++ "|" ++ cf.Lemma1 ++ "|" ++ hexStr cf.PoS1.Byte
      ++ "|" ++ hexStr cf.Deprel1.Byte ++ "|" ++ cf.Lemma2 ++ "|"
      ++ hexStr cf.PoS2.Byte ++ "|" ++ hexStr cf.Deprel2.Byte
  else
    hexStr cf.TextType.Byte ++ "|" ++ cf.Lemma1 ++ "|" ++ hexStr cf.Deprel1.Byte
      ++ "|" ++ cf.Lemma2 ++ "|" ++ hexStr cf.Deprel2.Byte

/-! ## Frequency aggregator (src/unnamed/part_010, package dataimport) -/

structure Freqs where
  Single : List (String × TokenFreq)
  Double : List (String × CollocFreq)
  TTMapping : String → ℕ

/-- The `freqs.newCollocFreq` (src/unnamed/part_010). -/
def newCollocFreq (ttMapping : String → ℕ) (token1 token2 : Token)
    (freq dist : ℤ) : CollocFreq :=
  { Lemma1 := token1.Lemma
    PoS1 := ImportUDPoS token1.PoS
    Deprel1 := ImportUDDeprel token1.Deprel
    Lemma2 := token2.Lemma
    PoS2 := ImportUDPoS token2.PoS
    Deprel2 := ImportUDDeprel token2.Deprel
    TextType := { Readable := token1.TextType, Raw := ttMapping token1.TextType }
    Freq := freq
    AVGDist := (dist : ℚ) }

/-- The `freqs.AddLemma` (src/unnamed/part_010, lines 56-73).  Note the
`curr.UpdateFreq(freq)` call: `UpdateFreq` has a value receiver, so its
result is discarded and `curr` is stored back unchanged (faithful to the
Go semantics of the source). -/
def Freqs.AddLemma (f : Freqs) (token : Token) (freq : ℤ) : Freqs :=
  let newEntry : TokenFreq :=
    { Lemma := token.Lemma
      PoS := ImportUDPoS token.PoS
      Deprel := ImportUDDeprel token.Deprel
      Freq := freq
      TextType := { Readable := token.TextType, Raw := f.TTMapping token.TextType } }
  let curr := (mapLookup f.Single newEntry.Key).getD newEntry
  let _discarded := curr.UpdateFreq freq  -- value receiver: no effect on curr
  { f with Single := mapInsert f.Single curr.Key curr }

/-- The `freqs.AddCooc` (src/unnamed/part_010, lines 85-94): the pair entry is
created with zero frequency/distance, then `UpdateFreqAndDist` (pointer
receiver) adds the occurrence and folds the distance into the mean. -/
def Freqs.AddCooc (f : Freqs) (token1 token2 : Token) (freq dist : ℤ) : Freqs :=
  let newEntry := newCollocFreq f.TTMapping token1 token2 0 0
  let entryKey := newEntry.Key
  let curr := (mapLookup f.Double entryKey).getD newEntry
  let curr := curr.UpdateFreqAndDist freq dist
  { f with Double := mapInsert f.Double entryKey curr }

/-- The iteration space of the inner loop of `freqs.ImportSentence`:
`for j := max(0, i-2); j < min(i+2, len(sent)); j++` skipping `j == i`
(`ℕ` subtraction gives the `max(0, ·)`). -/
def coocRange (n i : ℕ) : List ℕ :=
  (List.range' (i - 2) (min (i + 2) n - (i - 2))).filter (fun j => decide (j ≠ i))

/-- The `freqs.ImportSentence` (src/unnamed/part_010, lines 96-109): for each
position `i`, add the token and pair it with the window positions, with
the signed index difference `i - j` as the distance sample.
(`validateTT` only logs a warning and is omitted.) -/
def Freqs.ImportSentence (f : Freqs) (sent : List Token) : Freqs :=
  (List.range sent.length).foldl
    (fun acc i =>
      (coocRange sent.length i).foldl
        (fun acc2 j =>
          acc2.AddCooc (sent.getD i ⟨"", "", "", ""⟩) (sent.getD j ⟨"", "", "", ""⟩)
            1 ((i : ℤ) - (j : ℤ)))
        (acc.AddLemma (sent.getD i ⟨"", "", "", ""⟩) 1))
    f

/-! ## Key-value store model and lemma lookups (src/unnamed/part_006 / src/storage/read.go)

The ordered store is a list of `(key, value)` byte-slice pairs.
`txn.Get` returns `ErrKeyNotFound` on a miss, and `db.bdb.View` propagates
the closure's error — which is exactly what `GetLemmaID` hands back to its
caller.  Lemma strings here are ASCII, so code points coincide with UTF-8
bytes (`strBytes`). -/

/-- UTF-8 bytes of an (ASCII) lemma string. -/
def strBytes (s : String) : List ℕ := s.data.map Char.toNat

/-- String from stored bytes (inverse of `strBytes` for ASCII data). -/
def strFromBytes (bs : List ℕ) : String := String.mk (bs.map Char.ofNat)

/-- The `EncodeLemmaKey` (src/record/encoding.go): family byte `0x02` followed
by the raw lemma bytes.  (The Go function receives a whole `TokenFreq` but
reads only its `Lemma` field.) -/
def EncodeLemmaKey (lemmaStr : String) : List ℕ := 0x02 :: strBytes lemmaStr

/-- The `EncodeLemmaPrefixKey` (src/record/encoding.go): same layout, used as
a scan prefix. -/
def EncodeLemmaPfxKey (lemmaPfx : String) : List ℕ := 0x02 :: strBytes lemmaPfx

/-- The `binary.LittleEndian.Uint32` over the first four bytes. -/
def leUint32 (bs : List ℕ) : ℕ :=
  bs.getD 0 0 + 256 * bs.getD 1 0 + 256 ^ 2 * bs.getD 2 0 + 256 ^ 3 * bs.getD 3 0

inductive DBErr where
  | keyNotFound
deriving DecidableEq, Repr

/-- A snapshot of the ordered store: keys to values, both byte slices. -/
abbrev Store : Type := List (List ℕ × List ℕ)

/-- The `txn.Get`: point read, `ErrKeyNotFound` on a miss. -/
def txnGet (store : Store) (key : List ℕ) : Except DBErr (List ℕ) :=
  match (store.find? (fun kv => decide (kv.1 = key))).map (fun kv => kv.2) with
  | none => .error .keyNotFound
  | some v => .ok v

/-- The `GetLemmaID` (src/unnamed/part_006, lines 95-112): reads the lemma's
forward record inside a view transaction.  On a miss, `txn.Get` returns
`ErrKeyNotFound`, the view closure returns it, and `GetLemmaID` hands the
caller the pair `(0, err)` — the `tokenID` variable keeps its zero value
AND the error is returned. -/
def GetLemmaID (store : Store) (lemmaStr : String) : ℕ × Option DBErr :=
  match txnGet store (EncodeLemmaKey lemmaStr) with
  | .error e => (0, some e)
  | .ok bytes => (leUint32 bytes, none)

/-- The `GetLemmaIDsByPrefix` (src/unnamed/part_006, lines 120-150): iterator
over all keys extending the `0x02`-family prefix; each hit contributes the
trimmed lemma (key minus the family byte) and its little-endian id.  The
iterator itself cannot miss: when nothing matches, the result is the empty
list with a nil error. -/
def GetLemmaIDsByPfx (store : Store) (lemmaPfx : String) :
    List (String × ℕ) × Option DBErr :=
  ((store.filter (fun kv => (EncodeLemmaPfxKey lemmaPfx).isPrefixOf kv.1)).map
      (fun kv => (goTrim (strFromBytes (kv.1.drop 1)), leUint32 kv.2)),
    none)

/-! ## Pair writing with direction keys (modelled from the spec)

The current index writer and the direction-carrying `CollFreqKey` are not
among the source files: `src/unnamed/part_006` already reads pair records
through `record.AllCollFreqsOfToken(directionFlag, tokenID)` and decodes a
single-deprel key, but only older revisions of `CollFreqKey` (no direction
byte, two one-byte deprels) and of `StoreData` (single write per pair) are
present.  The two definitions below model the missing writer-side pieces
from the specification. -/

/-- A pair-frequency entry as seen by the index writer, with the token ids
already minted. -/
structure PairRecord where
  Token1ID : ℕ
  PoS1 : ℕ
  TextType : ℕ
  Deprel : ℕ
  Token2ID : ℕ
  PoS2 : ℕ
  Freq : ℤ
deriving DecidableEq, Repr

/-- Modelled from the spec: the current `CollFreqKey` layout of family
`0x05` — `0x05, direction byte (0/1), tokenID1 (4, LE), pos1, textType,
deprel (2, LE), tokenID2 (4, LE), pos2` (missing from src; spec section 6
gives the layout, with the direction byte immediately after the family
prefix). -/
def CollFreqDirKey (isHead : Bool) (token1ID pos1 textType deprel token2ID pos2 : ℕ) :
    List ℕ :=
  0x05 :: (if isHead then 1 else 0) :: uint32LE token1ID ++ [pos1, textType]
    ++ uint16LE deprel ++ uint32LE token2ID ++ [pos2]

/-- Modelled from the spec: the pair-writing loop of the current
`StoreData` (missing from src) — each pair entry at or above
`minPairFreq` is written twice, once as head-direction keyed from token1
and once as dependent-direction keyed from token2, so either endpoint is
reachable with a single prefix scan; entries below the threshold are
skipped. -/
def storePairsModel (pairs : List PairRecord) (minPairFreq : ℤ) : List (List ℕ) :=
  pairs.foldr
    (fun p acc =>
      if p.Freq < minPairFreq then acc
      else
        CollFreqDirKey true p.Token1ID p.PoS1 p.TextType p.Deprel p.Token2ID p.PoS2
          :: CollFreqDirKey false p.Token2ID p.PoS2 p.TextType p.Deprel p.Token1ID p.PoS1
          :: acc)
    []

/-! ## Theorems -/

theorem goRound_intCast (k : ℤ) : goRound (k : ℚ) = k := by
  unfold goRound
  rcases le_or_lt 0 (k : ℚ) with h | h
  · rw [if_pos h, Int.floor_eq_iff]
    constructor
    · linarith
    · push_cast; linarith
  · rw [if_neg (not_le.mpr h), Int.ceil_eq_iff]
    constructor
    · push_cast; linarith
    · linarith

/-- The `goRound` stays within `[-127, 127]` on inputs from that interval. -/
theorem goRound_bounds {q : ℚ} (h1 : -127 ≤ q) (h2 : q ≤ 127) :
    -127 ≤ goRound q ∧ goRound q ≤ 127 := by
  unfold goRound
  rcases le_or_lt 0 q with h | h
  · rw [if_pos h]
    constructor
    · have : (0 : ℤ) ≤ ⌊q + 1/2⌋ := Int.floor_nonneg.mpr (by linarith)
      omega
    · have : ⌊q + 1/2⌋ ≤ ⌊(127 : ℚ) + 1/2⌋ := Int.floor_le_floor (by linarith)
      have h127 : ⌊(127 : ℚ) + 1/2⌋ = 127 := by
        rw [Int.floor_eq_iff] <;> norm_num
      omega
  · rw [if_neg (not_le.mpr h)]
    constructor
    · have : ⌈(-127 : ℚ) - 1/2⌉ ≤ ⌈q - 1/2⌉ := Int.ceil_le_ceil (by linarith)
      have h127 : ⌈(-127 : ℚ) - 1/2⌉ = -127 := by
        rw [Int.ceil_eq_iff] <;> norm_num
      omega
    · have : ⌈q - 1/2⌉ ≤ ⌈(127 : ℚ) - 1/2⌉ := Int.ceil_le_ceil (by linarith)
      have h127 : ⌈(127 : ℚ) - 1/2⌉ = 127 := by
        rw [Int.ceil_eq_iff] <;> norm_num
      omega

/-- The `EncodeDistance` with its `let` bindings expanded, for rewriting. -/
theorem EncodeDistance_def (d : ℚ) :
    EncodeDistance d =
      (if goRound (d * 10) < 0 then
        (-(if goRound (d * 10) < -127 then -127 else goRound (d * 10)) - 1).toNat
      else
        ((if goRound (d * 10) > 127 then 127 else goRound (d * 10)) + 128).toNat) := rfl

/-- Core inversion: whenever the scaled value stays inside `[-127, 127]`,
decoding the encoded byte recovers the rounded scaled value. -/
theorem decode_encode_eq {d : ℚ} (h1 : -(127 : ℚ) ≤ d * 10) (h2 : d * 10 ≤ 127) :
    DecodeDistance (EncodeDistance d) = (goRound (d * 10) : ℚ) / 10 := by
  obtain ⟨hb1, hb2⟩ := goRound_bounds h1 h2
  rw [EncodeDistance_def]
  set s : ℤ := goRound (d * 10) with hs
  rcases lt_or_le s 0 with hneg | hpos
  · rw [if_pos hneg, if_neg (by omega : ¬ s < -127)]
    have hnn : (0 : ℤ) ≤ -s - 1 := by omega
    have hlt : (-s - 1).toNat < 128 := by omega
    rw [DecodeDistance, if_pos hlt]
    have hcast : (((-s - 1).toNat : ℚ)) = ((-s - 1 : ℤ) : ℚ) := by
      exact_mod_cast congrArg (fun z : ℤ => (z : ℚ)) (Int.toNat_of_nonneg hnn)
    rw [hcast]
    push_cast
    ring
  · rw [if_neg (not_lt.mpr hpos), if_neg (by omega : ¬ s > 127)]
    have hnn : (0 : ℤ) ≤ s + 128 := by omega
    have hge : ¬ (s + 128).toNat < 128 := by omega
    rw [DecodeDistance, if_neg hge]
    have hcast : (((s + 128).toNat : ℚ)) = ((s + 128 : ℤ) : ℚ) := by
      exact_mod_cast congrArg (fun z : ℤ => (z : ℚ)) (Int.toNat_of_nonneg hnn)
    rw [hcast]
    push_cast
    ring

/-- C3: for every distance `d = k/10` with `k ∈ [-127, 127]`,
`DecodeDistance (EncodeDistance d) = d`; for arbitrary `d` in
`[-12.7, 12.7]` the round trip returns `d` rounded to one decimal
(Go rounding, half away from zero); and for `|d| > 12.7` the round trip
returns the value `±12.7` carrying the sign of `d`. -/
theorem distance_codec_roundtrip :
    (∀ k : ℤ, -127 ≤ k → k ≤ 127 →
      DecodeDistance (EncodeDistance ((k : ℚ) / 10)) = (k : ℚ) / 10)
    ∧ (∀ d : ℚ, -(127 / 10) ≤ d → d ≤ 127 / 10 →
      DecodeDistance (EncodeDistance d) = (goRound (d * 10) : ℚ) / 10)
    ∧ (∀ d : ℚ, 127 / 10 < |d| →
      |DecodeDistance (EncodeDistance d)| = 127 / 10
      ∧ (0 < d ↔ 0 < DecodeDistance (EncodeDistance d))) := by
  refine ⟨?_, ?_, ?_⟩
  · intro k hk1 hk2
    have hmul : ((k : ℚ) / 10) * 10 = (k : ℚ) := by ring
    have h1 : -(127 : ℚ) ≤ ((k : ℚ) / 10) * 10 := by
      rw [hmul]; exact_mod_cast hk1
    have h2 : ((k : ℚ) / 10) * 10 ≤ 127 := by
      rw [hmul]; exact_mod_cast hk2
    rw [decode_encode_eq h1 h2, hmul, goRound_intCast]
  · intro d hd1 hd2
    exact decode_encode_eq (by linarith) (by linarith)
  · intro d hd
    rcases lt_abs.mp hd with hpos | hneg
    · -- d > 12.7: the scaled value is clamped to 127, giving +12.7 back
      have h0 : (0 : ℚ) ≤ d * 10 := by linarith
      have hs : 127 ≤ goRound (d * 10) := by
        unfold goRound
        rw [if_pos h0]
        exact Int.le_floor.mpr (by push_cast; linarith)
      rw [EncodeDistance_def]
      set s : ℤ := goRound (d * 10) with hsdef
      rw [if_neg (by omega : ¬ s < 0)]
      have hbyte : ((if s > 127 then 127 else s) + 128).toNat = 255 := by
        rcases lt_or_eq_of_le hs with h | h
        · rw [if_pos h]
          decide
        · rw [if_neg (by omega : ¬ s > 127)]
          omega
      have hdec : DecodeDistance 255 = 127 / 10 := by
        rw [DecodeDistance, if_neg (by norm_num)]
        norm_num
      rw [hbyte, hdec]
      refine ⟨by norm_num, ?_⟩
      constructor
      · intro _
        norm_num
      · intro _
        linarith
    · -- d < -12.7: the scaled value is clamped to -127, giving -12.7 back
      have hd' : d < -(127 / 10) := lt_neg.mp hneg
      have h0 : ¬ (0 : ℚ) ≤ d * 10 := by
        rw [not_le]
        linarith
      have hs : goRound (d * 10) ≤ -127 := by
        unfold goRound
        rw [if_neg h0]
        refine Int.ceil_le.mpr ?_
        push_cast
        linarith
      rw [EncodeDistance_def]
      set s : ℤ := goRound (d * 10) with hsdef
      rw [if_pos (by omega : s < 0)]
      have hbyte : (-(if s < -127 then -127 else s) - 1).toNat = 126 := by
        rcases lt_or_eq_of_le hs with h | h
        · rw [if_pos h]
          decide
        · rw [if_neg (by omega : ¬ s < -127)]
          omega
      have hdec : DecodeDistance 126 = -(127 / 10) := by
        rw [DecodeDistance, if_pos (by norm_num)]
        norm_num
      rw [hbyte, hdec]
      refine ⟨by norm_num, ?_⟩
      constructor
      · intro h
        exfalso
        have := lt_neg.mp hneg
        linarith
      · intro h
        exfalso
        norm_num at h

/-- C3 witness: concrete instances of all three parts of
`distance_codec_roundtrip`. -/
theorem distance_codec_roundtrip_witness :
    DecodeDistance (EncodeDistance (((-3 : ℤ) : ℚ) / 10)) = ((-3 : ℤ) : ℚ) / 10
    ∧ DecodeDistance (EncodeDistance (6 : ℚ)) = (goRound ((6 : ℚ) * 10) : ℚ) / 10
    ∧ (|DecodeDistance (EncodeDistance (20 : ℚ))| = 127 / 10
        ∧ (0 < (20 : ℚ) ↔ 0 < DecodeDistance (EncodeDistance (20 : ℚ)))) :=
  ⟨distance_codec_roundtrip.1 (-3) (by omega) (by omega),
   distance_codec_roundtrip.2.1 6 (by norm_num) (by norm_num),
   distance_codec_roundtrip.2.2 20
     (by rw [abs_of_pos (by norm_num : (0 : ℚ) < 20)]; norm_num)⟩

/-- C10: `DecodeDistance` is total on all 256 byte values; `EncodeDistance`
is its left inverse on every byte except 127; byte 127 decodes to `-12.8`,
which lies below the documented lower bound `-12.7` and re-encodes to
byte 126. -/
theorem distance_codec_byte_inverse :
    (∀ b : ℕ, b < 256 → b ≠ 127 → EncodeDistance (DecodeDistance b) = b)
    ∧ DecodeDistance 127 = -(64 / 5)
    ∧ DecodeDistance 127 < -(127 / 10)
    ∧ EncodeDistance (DecodeDistance 127) = 126 := by
  have hdec127 : DecodeDistance 127 = -(64 / 5) := by
    rw [DecodeDistance, if_pos (by norm_num)]
    norm_num
  refine ⟨?_, hdec127, by rw [hdec127]; norm_num, ?_⟩
  · intro b hb hne
    rcases lt_or_le b 128 with hlow | hhigh
    · -- bytes 0..126 decode to -(b+1)/10 and re-encode to b
      have hb126 : b ≤ 126 := by omega
      have hdecb : DecodeDistance b = -(((b : ℚ) + 1)) / 10 := by
        rw [DecodeDistance, if_pos hlow]
      have hscale : (-(((b : ℚ) + 1)) / 10) * 10 = ((-(b : ℤ) - 1 : ℤ) : ℚ) := by
        push_cast
        ring
      rw [hdecb, EncodeDistance_def, hscale, goRound_intCast]
      rw [if_pos (by omega : (-(b : ℤ) - 1 : ℤ) < 0)]
      rw [if_neg (by omega : ¬ (-(b : ℤ) - 1 : ℤ) < -127)]
      omega
    · -- bytes 128..255 decode to (b-128)/10 and re-encode to b
      have hdecb : DecodeDistance b = ((b : ℚ) - 128) / 10 := by
        rw [DecodeDistance, if_neg (by omega)]
      have hscale : (((b : ℚ) - 128) / 10) * 10 = (((b : ℤ) - 128 : ℤ) : ℚ) := by
        push_cast
        ring
      rw [hdecb, EncodeDistance_def, hscale, goRound_intCast]
      rw [if_neg (by omega : ¬ ((b : ℤ) - 128 : ℤ) < 0)]
      rw [if_neg (by omega : ¬ ((b : ℤ) - 128 : ℤ) > 127)]
      omega
  · -- byte 127 decodes to -12.8, whose re-encoding clamps to -127 (byte 126)
    have hscale : (-(64 / 5) : ℚ) * 10 = ((-128 : ℤ) : ℚ) := by
      push_cast
      ring
    rw [hdec127, EncodeDistance_def, hscale, goRound_intCast]
    rw [if_pos (by omega : (-128 : ℤ) < 0)]
    rw [if_pos (by omega : (-128 : ℤ) < -127)]
    decide

/-- C10 witness: the inverse property applied at byte 5, plus the byte-127
special case. -/
theorem distance_codec_byte_inverse_witness :
    EncodeDistance (DecodeDistance 5) = 5 ∧ DecodeDistance 127 = -(64 / 5) :=
  ⟨distance_codec_byte_inverse.1 5 (by omega) (by omega),
   distance_codec_byte_inverse.2.1⟩

/-- C4: with the grouping toggles coordinated the way `CalculateMeasures`
sets them (the pos toggle shared by the `F(x)` grouper and the pos1 toggle
of the `F(x,y)` grouper, the text-type toggle shared by both), the 6-byte
lemma-1 projection key of any zeroed collocation entry equals the `F(x)`
grouper's binary key for the `RawTokenFreq` carrying the same token id,
pos and text type — the invariant that lets the scoring stage join
`F(x)` to `F(x,y)` by key. -/
theorem grouping_lemma1_key_closure (tg : tokenFreqGrouping) (cg : collFreqGrouping)
    (hpos : cg.groupByPos1 = tg.groupByPos) (htt : cg.groupByTT = tg.groupByTT)
    (fr : ℕ) (f : RawCollocFreq) :
    (cg.zeroed f).GroupingKeyLemma1Binary
      = tg.keyFor { TokenID := f.Token1ID, PoS := f.PoS1, Freq := fr, TextType := f.TextType } := by
  simp [collFreqGrouping.zeroed, tokenFreqGrouping.keyFor, tokenFreqGrouping.zeroed,
    RawCollocFreq.GroupingKeyLemma1Binary, RawTokenFreq.GroupingKeyBinary, hpos, htt]

/-- C4 witness: the key closure at a concrete grouped pair with pos and
text-type grouping on. -/
theorem grouping_lemma1_key_closure_witness :
    (collFreqGrouping.zeroed ⟨true, false, true, true, []⟩
        ⟨1, 2, 3, 4, 5, 6, 0, 7⟩).GroupingKeyLemma1Binary
      = tokenFreqGrouping.keyFor ⟨true, true, []⟩
        { TokenID := 1, PoS := 2, Freq := 9, TextType := 7 } :=
  grouping_lemma1_key_closure ⟨true, true, []⟩ ⟨true, false, true, true, []⟩
    rfl rfl 9 ⟨1, 2, 3, 4, 5, 6, 0, 7⟩

/-- C2 (spec-modelled): every pair entry at or above `minPairFreq` is
written to family `0x05` twice — once keyed head-direction from token1 and
once dependent-direction from token2 — and every such key carries the
direction byte immediately after the `0x05` family prefix. -/
theorem pair_written_in_both_directions (pairs : List PairRecord) (minPairFreq : ℤ)
    (p : PairRecord) (hmem : p ∈ pairs) (hfreq : ¬ p.Freq < minPairFreq) :
    CollFreqDirKey true p.Token1ID p.PoS1 p.TextType p.Deprel p.Token2ID p.PoS2
        ∈ storePairsModel pairs minPairFreq
    ∧ CollFreqDirKey false p.Token2ID p.PoS2 p.TextType p.Deprel p.Token1ID p.PoS1
        ∈ storePairsModel pairs minPairFreq
    ∧ (∀ (isHead : Bool) (t1 pos1 tt dpr t2 pos2 : ℕ),
        (CollFreqDirKey isHead t1 pos1 tt dpr t2 pos2).take 2
          = [0x05, if isHead then 1 else 0]) := by
  refine ⟨?_, ?_, ?_⟩
  · induction pairs with
    | nil => cases hmem
    | cons q rest ih =>
      rcases List.mem_cons.mp hmem with rfl | hmem'
      · simp only [storePairsModel, List.foldr_cons, if_neg hfreq]
        exact List.mem_cons_self _ _
      · simp only [storePairsModel, List.foldr_cons]
        have hrest := ih hmem'
        simp only [storePairsModel] at hrest
        split
        · exact hrest
        · exact List.mem_cons_of_mem _ (List.mem_cons_of_mem _ hrest)
  · induction pairs with
    | nil => cases hmem
    | cons q rest ih =>
      rcases List.mem_cons.mp hmem with rfl | hmem'
      · simp only [storePairsModel, List.foldr_cons, if_neg hfreq]
        exact List.mem_cons_of_mem _ (List.mem_cons_self _ _)
      · simp only [storePairsModel, List.foldr_cons]
        have hrest := ih hmem'
        simp only [storePairsModel] at hrest
        split
        · exact hrest
        · exact List.mem_cons_of_mem _ (List.mem_cons_of_mem _ hrest)
  · intro isHead t1 pos1 tt dpr t2 pos2
    cases isHead <;> rfl

/-- C2 witness: a concrete pair list with one entry above the threshold. -/
theorem pair_written_in_both_directions_witness :
    CollFreqDirKey true 1 2 3 4 5 6 ∈ storePairsModel [⟨1, 2, 3, 4, 5, 6, 7⟩] 5
    ∧ CollFreqDirKey false 5 6 3 4 1 2 ∈ storePairsModel [⟨1, 2, 3, 4, 5, 6, 7⟩] 5
    ∧ (CollFreqDirKey true 1 2 3 4 5 6).take 2 = [0x05, if true then 1 else 0] :=
  match pair_written_in_both_directions [⟨1, 2, 3, 4, 5, 6, 7⟩] 5 ⟨1, 2, 3, 4, 5, 6, 7⟩
    (List.mem_singleton.mpr rfl) (by decide) with
  | ⟨h1, h2, h3⟩ => ⟨h1, h2, h3 true 1 2 3 4 5 6⟩

/-- C9: a lemma miss in `GetLemmaID` returns the sentinel id 0 but ALSO a
non-nil `ErrKeyNotFound` — the error IS surfaced to the caller,
contradicting the claim (and the function's own doc comment, which says
"zero is returned (i.e. no error)"); while a prefix lookup with no match
indeed returns the empty sequence with no error. -/
theorem lemma_miss_returns_error :
    GetLemmaID [(EncodeLemmaKey "cat", uint32LE 1)] "dog" = (0, some DBErr.keyNotFound)
    ∧ GetLemmaIDsByPfx [(EncodeLemmaKey "cat", uint32LE 1)] "do" = ([], none) := by
  constructor
  · rfl
  · rfl

/-- C7: after two `AddLemma` updates for the very same token (a sentence
containing the token twice), the stored frequency is still 1, not 2 —
`UpdateFreq` has a value receiver, so the increment is lost.  The single
entry of the aggregated map keeps frequency 1. -/
theorem aggregator_freq_not_incremented :
    ((Freqs.ImportSentence { Single := [], Double := [], TTMapping := fun _ => 1 }
        [⟨"dog", "NOUN", "nsubj", "fic"⟩, ⟨"dog", "NOUN", "nsubj", "fic"⟩]).Single).map
      (fun kv => kv.2.Freq) = [1] := by
  rfl

theorem GoFloat.add_nan_left (x : GoFloat) : GoFloat.nan + x = GoFloat.nan := by
  cases x <;> rfl

theorem GoFloat.add_nan_right (x : GoFloat) : x + GoFloat.nan = GoFloat.nan := by
  cases x <;> rfl

theorem GoFloat.sub_nan_left (x : GoFloat) : GoFloat.nan - x = GoFloat.nan := by
  cases x <;> rfl

theorem GoFloat.mul_nan_right (x : GoFloat) : x * GoFloat.nan = GoFloat.nan := by
  cases x <;> rfl

theorem GoFloat.fin_zero_mul_negInf : GoFloat.fin 0 * GoFloat.negInf = GoFloat.nan := by
  show GoFloat.mul (GoFloat.fin 0) GoFloat.negInf = GoFloat.nan
  unfold GoFloat.mul
  simp

/-- C5: `LLScore` does NOT guard its logarithms.  Whenever `b = Fx - Fxy`
vanishes (here `Fxy = Fx = Fy = 1`, `N = 2`), the term `b*ln(b)` is
`0 * ln(0) = 0 * (-Inf) = NaN`, which propagates to the returned score:
the result is NaN for any model of `math.Log` with `log 0 = -Inf`, not the
finite value the claim requires. -/
theorem llscore_nan_unguarded (log : ℚ → GoFloat) (hz : log 0 = GoFloat.negInf) :
    LLScore log 1 1 1 2 = GoFloat.nan
    ∧ (LLScore log 1 1 1 2).isFinite = false := by
  have hb : ((u32sub 1 1 : ℕ) : ℚ) = 0 := by norm_num [u32sub]
  have hmain : LLScore log 1 1 1 2 = GoFloat.nan := by
    unfold LLScore
    simp only [hb, hz, GoFloat.fin_zero_mul_negInf, GoFloat.add_nan_right,
      GoFloat.add_nan_left, GoFloat.sub_nan_left, GoFloat.mul_nan_right]
  exact ⟨hmain, by rw [hmain]; rfl⟩

/-- C5 witness: the NaN result with a concrete model of `math.Log`. -/
theorem llscore_nan_unguarded_witness :
    LLScore (fun q => if q = 0 then GoFloat.negInf else GoFloat.fin 0) 1 1 1 2
        = GoFloat.nan
    ∧ (LLScore (fun q => if q = 0 then GoFloat.negInf else GoFloat.fin 0) 1 1 1 2).isFinite
        = false :=
  llscore_nan_unguarded _ (by simp)

theorem find?_map_overwrite {κ ν : Type} [DecidableEq κ] (k : κ) (v : ν) :
    ∀ (m : List (κ × ν)), m.any (fun kv => decide (kv.1 = k)) = true →
      (List.find? (fun kv => decide (kv.1 = k))
        (m.map (fun kv => if kv.1 = k then (k, v) else kv))).map (fun kv => kv.2)
        = some v
  | [], h => by simp at h
  | a :: m, h => by
    by_cases ha : a.1 = k
    · rw [List.map_cons, if_pos ha, List.find?_cons_of_pos _ (by simp)]
      rfl
    · have h' : m.any (fun kv => decide (kv.1 = k)) = true := by
        simpa [ha] using h
      rw [List.map_cons, if_neg ha, List.find?_cons_of_neg _ (by simpa using ha)]
      exact find?_map_overwrite k v m h'

theorem find?_append_miss {κ ν : Type} [DecidableEq κ] (k : κ) (v : ν) :
    ∀ (m : List (κ × ν)), m.any (fun kv => decide (kv.1 = k)) = false →
      (List.find? (fun kv => decide (kv.1 = k)) (m ++ [(k, v)])).map (fun kv => kv.2)
        = some v
  | [], _ => by simp
  | a :: m, h => by
    have ⟨ha, h'⟩ : a.1 ≠ k ∧ m.any (fun kv => decide (kv.1 = k)) = false := by
      simpa using h
    rw [List.cons_append, List.find?_cons_of_neg _ (by simpa using ha)]
    exact find?_append_miss k v m h'

/-- Point lookup after a point insert finds the inserted value. -/
theorem mapLookup_mapInsert {κ ν : Type} [DecidableEq κ] (m : List (κ × ν))
    (k : κ) (v : ν) : mapLookup (mapInsert m k v) k = some v := by
  unfold mapLookup mapInsert
  by_cases h : m.any (fun kv => decide (kv.1 = k)) = true
  · rw [if_pos h]
    exact find?_map_overwrite k v m h
  · rw [if_neg h]
    exact find?_append_miss k v m (Bool.eq_false_iff.mpr (by simpa using h))

/-- C8 counterexample: in a three-token path `[a, b, c]`, the collocate
`c` lies two positions after `a` — within the claimed ±2 window — yet
`ImportSentence` records no pair keyed `(a, c)`: the inner loop stops at
`j < i + 2`, so the token two positions AFTER `t` is never paired from
`t`'s side. -/
theorem cooc_window_missing_pair :
    mapLookup
      ((Freqs.ImportSentence { Single := [], Double := [], TTMapping := fun _ => 1 }
        [⟨"a", "NOUN", "nsubj", "f"⟩, ⟨"b", "VERB", "obj", "f"⟩,
         ⟨"c", "NOUN", "nmod", "f"⟩]).Double)
      ((newCollocFreq (fun _ => 1) ⟨"a", "NOUN", "nsubj", "f"⟩
        ⟨"c", "NOUN", "nmod", "f"⟩ 0 0).Key)
      = none := by
  rfl

/-- C8 (amended): the co-occurrence window of `ImportSentence` is the
positions `j` with `i - 2 ≤ j ≤ i + 1`, `j ≠ i` (up to two positions
before `t` but only one after, not the symmetric ±2), and each visit adds
`freq` (called with 1) to the pair keyed by the two tokens while folding
the signed index difference `i - j` into the running mean distance. -/
theorem cooc_window_amended :
    (∀ n i j : ℕ, j ∈ coocRange n i ↔
        (j < n ∧ j ≠ i ∧ (i : ℤ) - 2 ≤ (j : ℤ) ∧ (j : ℤ) ≤ (i : ℤ) + 1))
    ∧ (∀ (f : Freqs) (t1 t2 : Token) (freq dist : ℤ),
        mapLookup (f.AddCooc t1 t2 freq dist).Double
            (newCollocFreq f.TTMapping t1 t2 0 0).Key
          = some (((mapLookup f.Double (newCollocFreq f.TTMapping t1 t2 0 0).Key).getD
              (newCollocFreq f.TTMapping t1 t2 0 0)).UpdateFreqAndDist freq dist)) := by
  constructor
  · intro n i j
    simp only [coocRange, List.mem_filter, List.mem_range'_1, decide_eq_true_eq]
    omega
  · intro f t1 t2 freq dist
    simp only [Freqs.AddCooc]
    exact mapLookup_mapInsert _ _ _

/-- C8 amended-claim witness: the window characterisation at `n = 5`,
`i = 3`, `j = 4` (one position after), and the per-update effect on a
concrete empty accumulator. -/
theorem cooc_window_amended_witness :
    (4 ∈ coocRange 5 3 ↔
      (4 < 5 ∧ 4 ≠ 3 ∧ (3 : ℤ) - 2 ≤ (4 : ℤ) ∧ (4 : ℤ) ≤ (3 : ℤ) + 1))
    ∧ mapLookup
          ((Freqs.AddCooc { Single := [], Double := [], TTMapping := fun _ => 1 }
            ⟨"a", "NOUN", "nsubj", "f"⟩ ⟨"c", "NOUN", "nmod", "f"⟩ 1 (-2)).Double)
          ((newCollocFreq (fun _ => 1) ⟨"a", "NOUN", "nsubj", "f"⟩
            ⟨"c", "NOUN", "nmod", "f"⟩ 0 0).Key)
        = some (((mapLookup ([] : List (String × CollocFreq))
              ((newCollocFreq (fun _ => 1) ⟨"a", "NOUN", "nsubj", "f"⟩
                ⟨"c", "NOUN", "nmod", "f"⟩ 0 0).Key)).getD
            (newCollocFreq (fun _ => 1) ⟨"a", "NOUN", "nsubj", "f"⟩
              ⟨"c", "NOUN", "nmod", "f"⟩ 0 0)).UpdateFreqAndDist 1 (-2)) :=
  ⟨cooc_window_amended.1 5 3 4,
   cooc_window_amended.2 { Single := [], Double := [], TTMapping := fun _ => 1 }
     ⟨"a", "NOUN", "nsubj", "f"⟩ ⟨"c", "NOUN", "nmod", "f"⟩ 1 (-2)⟩

/-- The `tokenFreqGrouping.get` returns an entry within the frequency bound
carried by the data (the miss default has frequency 0). -/
theorem tokenFreqGrouping.get_freq_lt (g : tokenFreqGrouping)
    (h : ∀ kv ∈ g.data, kv.2.Freq < 2 ^ 31) (key : BinaryKey) :
    (g.get key).Freq < 2 ^ 31 := by
  unfold tokenFreqGrouping.get mapLookup
  cases hfind : g.data.find? (fun kv => decide (kv.1 = key)) with
  | none => simp
  | some kv => exact h kv (List.mem_of_find?_eq_some hfind)

/-- C1: every collocation reported by the scoring loop of
`CalculateMeasures` carries
`logDice = 14 + log2(2*Fxy / (Fx + Fy))`, where `Fxy` is the grouped pair
frequency and `Fx`, `Fy` are the single-token frequencies joined from the
`F(x)` / `F(y)` groupings by the binary projection keys (stated in the
overflow-free regime: all grouped frequencies below `2^31`, so the
`uint32` operations are exact). -/
theorem logdice_formula (log2 sqrt : ℚ → ℚ) (llF : ℚ → ℚ → ℚ → ℚ → ℚ)
    (lemmaById posRev ttRead deprelRev : ℕ → String)
    (lemmaValue pos : String) (corpusSize : ℚ)
    (g1 g2 : tokenFreqGrouping) (gc : collFreqGrouping)
    (h1 : ∀ kv ∈ g1.data, kv.2.Freq < 2 ^ 31)
    (h2 : ∀ kv ∈ g2.data, kv.2.Freq < 2 ^ 31)
    (hcf : ∀ kv ∈ gc.data, kv.2.Freq < 2 ^ 31) :
    ∀ c ∈ calcResults log2 sqrt llF lemmaById posRev ttRead deprelRev
        lemmaValue pos corpusSize g1 g2 gc,
      ∃ kv ∈ gc.data,
        c.LogDice = 14 + log2 ((2 * (kv.2.Freq : ℚ))
          / (((g1.get kv.2.GroupingKeyLemma1Binary).Freq : ℚ)
             + ((g2.get kv.2.GroupingKeyLemma2Binary).Freq : ℚ))) := by
  intro c hcmem
  obtain ⟨kv, hkv, hceq⟩ := List.mem_map.mp hcmem
  refine ⟨kv, hkv, ?_⟩
  have hfxy : kv.2.Freq < 2 ^ 31 := hcf kv hkv
  have hf1 : (g1.get kv.2.GroupingKeyLemma1Binary).Freq < 2 ^ 31 :=
    tokenFreqGrouping.get_freq_lt g1 h1 _
  have hf2 : (g2.get kv.2.GroupingKeyLemma2Binary).Freq < 2 ^ 31 :=
    tokenFreqGrouping.get_freq_lt g2 h2 _
  have hu1 : u32 (2 * kv.2.Freq) = 2 * kv.2.Freq :=
    Nat.mod_eq_of_lt (by omega)
  have hu2 : u32 ((g1.get kv.2.GroupingKeyLemma1Binary).Freq
      + (g2.get kv.2.GroupingKeyLemma2Binary).Freq)
      = (g1.get kv.2.GroupingKeyLemma1Binary).Freq
        + (g2.get kv.2.GroupingKeyLemma2Binary).Freq :=
    Nat.mod_eq_of_lt (by omega)
  rw [← hceq]
  dsimp only
  rw [hu1, hu2]
  push_cast
  ring_nf

/-- C1 witness: the logDice formula evaluated at the single entry of a
concrete one-entry `F(x,y)` grouping. -/
theorem logdice_formula_witness :
    ((calcResults (fun _ => 0) (fun _ => 1) (fun _ _ _ _ => 0) (fun _ => "x")
        (fun _ => "") (fun _ => "") (fun _ => "") "dog" "" 100
        ⟨false, false, []⟩ ⟨false, false, []⟩
        ⟨false, false, false, false,
          [(([1, 0, 0, 0, 2, 0] : CollBinaryKey),
            (⟨1, 0, 0, 2, 0, 3, 0, 0⟩ : RawCollocFreq))]⟩).getD 0 dfltColl).LogDice
      = 14 + (fun _ : ℚ => (0 : ℚ))
          (2 * ((3 : ℕ) : ℚ)
            / (((tokenFreqGrouping.get ⟨false, false, []⟩
                  (RawCollocFreq.GroupingKeyLemma1Binary ⟨1, 0, 0, 2, 0, 3, 0, 0⟩)).Freq : ℚ)
               + ((tokenFreqGrouping.get ⟨false, false, []⟩
                  (RawCollocFreq.GroupingKeyLemma2Binary ⟨1, 0, 0, 2, 0, 3, 0, 0⟩)).Freq : ℚ))) := by
  obtain ⟨kv, hkv, heq⟩ :=
    logdice_formula (fun _ => 0) (fun _ => 1) (fun _ _ _ _ => 0) (fun _ => "x")
      (fun _ => "") (fun _ => "") (fun _ => "") "dog" "" 100
      ⟨false, false, []⟩ ⟨false, false, []⟩
      ⟨false, false, false, false,
        [(([1, 0, 0, 0, 2, 0] : CollBinaryKey),
          (⟨1, 0, 0, 2, 0, 3, 0, 0⟩ : RawCollocFreq))]⟩
      (by simp) (by simp) (by decide) _ (List.mem_cons_self _ _)
  rw [List.mem_singleton] at hkv
  subst hkv
  exact heq

theorem bumpScore_apply (m : String → ℚ) (k : String) (v : ℚ) (h : String) :
    bumpScore m k v h = m h + (if h = k then v else 0) := by
  unfold bumpScore
  split
  · rfl
  · simp

theorem rrfScores_foldl (l1 l2 l3 l4 : List Collocation) :
    ∀ (n : ℕ) (base : String → ℚ) (h : String),
      ((List.range n).foldl
        (fun acc i =>
          bumpScore
            (bumpScore
              (bumpScore
                (bumpScore acc ((l1.getD i dfltColl).hashData) (1 / (rrfConstantD + (i : ℚ))))
                ((l2.getD i dfltColl).hashData) (1 / (rrfConstantD + (i : ℚ))))
              ((l3.getD i dfltColl).hashData) (1 / (rrfConstantD + (i : ℚ))))
            ((l4.getD i dfltColl).hashData) (1 / (rrfConstantD + (i : ℚ))))
        base) h
      = base h + ∑ i ∈ Finset.range n,
          ((if h = (l1.getD i dfltColl).hashData then 1 / (rrfConstantD + (i : ℚ)) else 0)
           + (if h = (l2.getD i dfltColl).hashData then 1 / (rrfConstantD + (i : ℚ)) else 0)
           + (if h = (l3.getD i dfltColl).hashData then 1 / (rrfConstantD + (i : ℚ)) else 0)
           + (if h = (l4.getD i dfltColl).hashData then 1 / (rrfConstantD + (i : ℚ)) else 0)) := by
  intro n
  induction n with
  | zero => intro base h; simp
  | succ n ih =>
    intro base h
    rw [List.range_succ, List.foldl_append, Finset.sum_range_succ]
    simp only [List.foldl_cons, List.foldl_nil]
    rw [bumpScore_apply, bumpScore_apply, bumpScore_apply, bumpScore_apply, ih]
    ring

/-- Evaluation of the Go `scores` map after the accumulation loop. -/
theorem rrfScores_apply (n : ℕ) (l1 l2 l3 l4 : List Collocation) (h : String) :
    rrfScores n l1 l2 l3 l4 h
      = ∑ i ∈ Finset.range n,
          ((if h = (l1.getD i dfltColl).hashData then 1 / (rrfConstantD + (i : ℚ)) else 0)
           + (if h = (l2.getD i dfltColl).hashData then 1 / (rrfConstantD + (i : ℚ)) else 0)
           + (if h = (l3.getD i dfltColl).hashData then 1 / (rrfConstantD + (i : ℚ)) else 0)
           + (if h = (l4.getD i dfltColl).hashData then 1 / (rrfConstantD + (i : ℚ)) else 0)) := by
  unfold rrfScores
  rw [rrfScores_foldl]
  simp

theorem getD_append_cons {α : Type} (d x : α) :
    ∀ (u v : List α), (u ++ x :: v).getD u.length d = x
  | [], _ => rfl
  | a :: u, v => by simpa using getD_append_cons d x u v

/-- In a list with pairwise-distinct hashes, a position matches `x`'s hash
exactly at the occurrence of `x`. -/
theorem hash_match_iff_idx (x : Collocation) (u v : List Collocation)
    (hnd : ((u ++ x :: v).map Collocation.hashData).Nodup) :
    ∀ i < (u ++ x :: v).length,
      (x.hashData = ((u ++ x :: v).getD i dfltColl).hashData ↔ i = u.length) := by
  have hpw : (u ++ x :: v).Pairwise
      (fun a b => a.hashData ≠ b.hashData) := List.pairwise_map.mp hnd
  have hdecomp := List.pairwise_append.mp hpw
  intro i hi
  constructor
  · intro heq
    by_contra hne
    rcases Nat.lt_or_ge i u.length with hlt | hge
    · have hgd : (u ++ x :: v).getD i dfltColl = u.getD i dfltColl :=
        List.getD_append u (x :: v) dfltColl i hlt
      have hmem : u.getD i dfltColl ∈ u := by
        have h1 : u.getD i dfltColl = u[i] := by
          simp [List.getD_eq_getElem?_getD, List.getElem?_eq_getElem hlt]
        rw [h1]
        exact List.getElem_mem hlt
      have hneq : (u.getD i dfltColl).hashData ≠ x.hashData :=
        hdecomp.2.2 _ hmem x (List.mem_cons_self x v)
      rw [hgd] at heq
      exact hneq heq.symm
    · have hgd : (u ++ x :: v).getD i dfltColl
          = (x :: v).getD (i - u.length) dfltColl :=
        List.getD_append_right u (x :: v) dfltColl i hge
      obtain ⟨k, hk⟩ : ∃ k, i - u.length = k + 1 := ⟨i - u.length - 1, by omega⟩
      have hv : (x :: v).getD (i - u.length) dfltColl = v.getD k dfltColl := by
        rw [hk]
        simp
      have hklen : k < v.length := by
        have hlen : i < u.length + (v.length + 1) := by
          simpa [List.length_append, List.length_cons] using hi
        omega
      have hmem : v.getD k dfltColl ∈ v := by
        have h1 : v.getD k dfltColl = v[k] := by
          simp [List.getD_eq_getElem?_getD, List.getElem?_eq_getElem hklen]
        rw [h1]
        exact List.getElem_mem hklen
      have hxneq : x.hashData ≠ (v.getD k dfltColl).hashData :=
        (List.pairwise_cons.mp hdecomp.2.1).1 _ hmem
      rw [hgd, hv] at heq
      exact hxneq heq
  · intro heq
    subst heq
    rw [getD_append_cons]

/-- Collapsing a sum over ranks when exactly one position satisfies the
condition. -/
theorem sum_ite_unique (n j : ℕ) (hj : j < n) (p : ℕ → Prop) [DecidablePred p]
    (hp : ∀ i < n, (p i ↔ i = j)) (c : ℕ → ℚ) :
    (∑ i ∈ Finset.range n, if p i then c i else 0) = c j := by
  have hcong : ∀ i ∈ Finset.range n,
      (if p i then c i else 0) = (if i = j then c i else 0) := by
    intro i hi
    exact if_congr (hp i (Finset.mem_range.mp hi)) rfl rfl
  rw [Finset.sum_congr rfl hcong, Finset.sum_ite_eq' (Finset.range n) j c,
    if_pos (Finset.mem_range.mpr hj)]

/-- In a list sorted descending under `val` with pairwise-distinct values,
the items strictly above `x` at a split are exactly the items before it. -/
theorem filter_gt_sorted_split (val : Collocation → ℚ) (u v : List Collocation)
    (x : Collocation)
    (hsort : (u ++ x :: v).Pairwise (fun a b => val b ≤ val a))
    (hdist : (u ++ x :: v).Pairwise (fun a b => val a ≠ val b)) :
    ((u ++ x :: v).filter (fun y => decide (val x < val y))).length = u.length := by
  rw [List.filter_append]
  have hsort' := List.pairwise_append.mp hsort
  have hdist' := List.pairwise_append.mp hdist
  have hu : (u.filter (fun y => decide (val x < val y))) = u := by
    rw [List.filter_eq_self]
    intro y hy
    have hle : val x ≤ val y := hsort'.2.2 y hy x (List.mem_cons_self x v)
    have hne : val y ≠ val x := hdist'.2.2 y hy x (List.mem_cons_self x v)
    simpa using lt_of_le_of_ne hle (Ne.symm hne)
  have hxv : ((x :: v).filter (fun y => decide (val x < val y))) = [] := by
    rw [List.filter_eq_nil_iff]
    intro y hy
    rcases List.mem_cons.mp hy with rfl | hyv
    · simp
    · have hle : val y ≤ val x := (List.pairwise_cons.mp hsort'.2.1).1 y hyv
      have hne : val x ≠ val y := (List.pairwise_cons.mp hdist'.2.1).1 y hyv
      simp only [decide_eq_true_eq]
      exact not_lt.mpr (le_of_lt (lt_of_le_of_ne hle (Ne.symm hne)))
  rw [hu, hxv, List.length_append]
  rfl

/-- The per-ranking contribution of the accumulation loop: with distinct
hashes, the sorted copy `l` contributes exactly `1 / (60 + rank)` to the
score of `x`. -/
theorem contrib_eq_rank (items l : List Collocation) (val : Collocation → ℚ)
    (hperm : List.Perm l items) (hsort : l.Pairwise (fun a b => val b ≤ val a))
    (hnd : (items.map Collocation.hashData).Nodup)
    (hdist : items.Pairwise (fun a b => val a ≠ val b))
    (x : Collocation) (hx : x ∈ items) :
    (∑ i ∈ Finset.range items.length,
        if x.hashData = (l.getD i dfltColl).hashData then 1 / (rrfConstantD + (i : ℚ)) else 0)
      = 1 / (rrfConstantD + (rankOf items val x : ℚ)) := by
  have hxl : x ∈ l := hperm.mem_iff.mpr hx
  obtain ⟨u, v, rfl⟩ := List.append_of_mem hxl
  have hlen : (u ++ x :: v).length = items.length := hperm.length_eq
  have hndl : ((u ++ x :: v).map Collocation.hashData).Nodup :=
    ((hperm.map Collocation.hashData).nodup_iff).mpr hnd
  have hdistl : (u ++ x :: v).Pairwise (fun a b => val a ≠ val b) :=
    (hperm.pairwise_iff (fun h => h ∘ Eq.symm)).mpr hdist
  have hj : u.length < items.length := by
    rw [← hlen]
    simp only [List.length_append, List.length_cons]
    omega
  have hsum : (∑ i ∈ Finset.range items.length,
      if x.hashData = ((u ++ x :: v).getD i dfltColl).hashData
        then 1 / (rrfConstantD + (i : ℚ)) else 0) = 1 / (rrfConstantD + (u.length : ℚ)) :=
    sum_ite_unique items.length u.length hj _
      (fun i hi => hash_match_iff_idx x u v hndl i (by omega)) _
  rw [hsum]
  have hrank : rankOf items val x = u.length := by
    unfold rankOf
    rw [← (hperm.filter (fun y => decide (val x < val y))).length_eq]
    exact filter_gt_sorted_split val u v x hsort hdistl
  rw [hrank]

/-- Go's `sort.Slice` with `less = val a > val b`, modelled by `mergeSort`
with the complementary `≤`, yields a descending order. -/
theorem mergeSort_desc_sorted (val : Collocation → ℚ) (l : List Collocation) :
    (l.mergeSort (fun a b => decide (val b ≤ val a))).Pairwise
      (fun a b => val b ≤ val a) := by
  have h := List.sorted_mergeSort
    (fun (a b c : Collocation) (hab : decide (val b ≤ val a) = true)
        (hbc : decide (val c ≤ val b) = true) => by
      simp only [decide_eq_true_eq] at hab hbc ⊢
      exact le_trans hbc hab)
    (fun (a b : Collocation) => by
      simp only [Bool.or_eq_true, decide_eq_true_eq]
      exact le_total (val b) (val a))
    l
  exact h.imp (fun hab => of_decide_eq_true hab)

/-- C6: with items identified by pairwise-distinct hashes and
pairwise-distinct values in each of the four measures (so that the four
rankings are well defined), `SortByRRF` returns a permutation of the
items in which every item's `RRFScore` equals the sum over the four
rankings (logDice, LMI, tScore, G²) of `1 / (60 + rank)` with zero-based
rank, sorted descending by that score. -/
theorem rrf_fusion (items : List Collocation)
    (hh : (items.map Collocation.hashData).Nodup)
    (hd1 : items.Pairwise (fun a b => a.LogDice ≠ b.LogDice))
    (hd2 : items.Pairwise (fun a b => a.LMI ≠ b.LMI))
    (hd3 : items.Pairwise (fun a b => a.TScore ≠ b.TScore))
    (hd4 : items.Pairwise (fun a b => a.LogLikelihood ≠ b.LogLikelihood)) :
    (SortByRRF items).Pairwise (fun a b => b.RRFScore ≤ a.RRFScore)
    ∧ List.Perm (SortByRRF items)
        (items.map (fun x =>
          { x with RRFScore :=
              1 / (rrfConstantD + (rankOf items (fun y => y.LogDice) x : ℚ))
              + 1 / (rrfConstantD + (rankOf items (fun y => y.LMI) x : ℚ))
              + 1 / (rrfConstantD + (rankOf items (fun y => y.TScore) x : ℚ))
              + 1 / (rrfConstantD + (rankOf items (fun y => y.LogLikelihood) x : ℚ)) })) := by
  constructor
  · exact mergeSort_desc_sorted (fun y => y.RRFScore) _
  · have hscore : ∀ x ∈ items,
        rrfScores items.length
          (items.mergeSort (fun a b => decide (b.LogDice ≤ a.LogDice)))
          (items.mergeSort (fun a b => decide (b.LMI ≤ a.LMI)))
          (items.mergeSort (fun a b => decide (b.TScore ≤ a.TScore)))
          (items.mergeSort (fun a b => decide (b.LogLikelihood ≤ a.LogLikelihood)))
          x.hashData
        = 1 / (rrfConstantD + (rankOf items (fun y => y.LogDice) x : ℚ))
          + 1 / (rrfConstantD + (rankOf items (fun y => y.LMI) x : ℚ))
          + 1 / (rrfConstantD + (rankOf items (fun y => y.TScore) x : ℚ))
          + 1 / (rrfConstantD + (rankOf items (fun y => y.LogLikelihood) x : ℚ)) := by
      intro x hx
      rw [rrfScores_apply, Finset.sum_add_distrib, Finset.sum_add_distrib,
        Finset.sum_add_distrib]
      rw [contrib_eq_rank items _ (fun y => y.LogDice)
          (List.mergeSort_perm items _) (mergeSort_desc_sorted (fun y => y.LogDice) items)
          hh hd1 x hx,
        contrib_eq_rank items _ (fun y => y.LMI)
          (List.mergeSort_perm items _) (mergeSort_desc_sorted (fun y => y.LMI) items)
          hh hd2 x hx,
        contrib_eq_rank items _ (fun y => y.TScore)
          (List.mergeSort_perm items _) (mergeSort_desc_sorted (fun y => y.TScore) items)
          hh hd3 x hx,
        contrib_eq_rank items _ (fun y => y.LogLikelihood)
          (List.mergeSort_perm items _)
          (mergeSort_desc_sorted (fun y => y.LogLikelihood) items)
          hh hd4 x hx]
    have hmapeq :
        items.map (fun it =>
          { it with RRFScore :=
              (rrfScores items.length
                (items.mergeSort (fun a b => decide (b.LogDice ≤ a.LogDice)))
                (items.mergeSort (fun a b => decide (b.LMI ≤ a.LMI)))
                (items.mergeSort (fun a b => decide (b.TScore ≤ a.TScore)))
                (items.mergeSort (fun a b => decide (b.LogLikelihood ≤ a.LogLikelihood)))
                it.hashData) })
          = items.map (fun x =>
            { x with RRFScore :=
                1 / (rrfConstantD + (rankOf items (fun y => y.LogDice) x : ℚ))
                + 1 / (rrfConstantD + (rankOf items (fun y => y.LMI) x : ℚ))
                + 1 / (rrfConstantD + (rankOf items (fun y => y.TScore) x : ℚ))
                + 1 / (rrfConstantD + (rankOf items (fun y => y.LogLikelihood) x : ℚ)) }) :=
      List.map_congr_left (fun x hx =>
        congrArg (fun s => { x with RRFScore := s }) (hscore x hx))
    have hperm : List.Perm (SortByRRF items)
        (items.map (fun it =>
          { it with RRFScore :=
              (rrfScores items.length
                (items.mergeSort (fun a b => decide (b.LogDice ≤ a.LogDice)))
                (items.mergeSort (fun a b => decide (b.LMI ≤ a.LMI)))
                (items.mergeSort (fun a b => decide (b.TScore ≤ a.TScore)))
                (items.mergeSort (fun a b => decide (b.LogLikelihood ≤ a.LogLikelihood)))
                it.hashData) })) :=
      List.mergeSort_perm _ _
    exact hperm.trans (List.Perm.of_eq hmapeq)

/-- C6 witness: the RRF fusion contract on a concrete two-item list with
distinct hashes and distinct measure values. -/
theorem rrf_fusion_witness :
    (SortByRRF [⟨⟨"a", "N"⟩, ⟨"b", "V"⟩, "nmod", 3, 2, 1, 5, 7, 0, "f"⟩,
        ⟨⟨"c", "N"⟩, ⟨"d", "V"⟩, "obj", 4, 1, -1, 6, 8, 0, "g"⟩]).Pairwise
      (fun a b => b.RRFScore ≤ a.RRFScore)
    ∧ List.Perm
        (SortByRRF [⟨⟨"a", "N"⟩, ⟨"b", "V"⟩, "nmod", 3, 2, 1, 5, 7, 0, "f"⟩,
          ⟨⟨"c", "N"⟩, ⟨"d", "V"⟩, "obj", 4, 1, -1, 6, 8, 0, "g"⟩])
        (([⟨⟨"a", "N"⟩, ⟨"b", "V"⟩, "nmod", 3, 2, 1, 5, 7, 0, "f"⟩,
          ⟨⟨"c", "N"⟩, ⟨"d", "V"⟩, "obj", 4, 1, -1, 6, 8, 0, "g"⟩] :
            List Collocation).map (fun x =>
          { x with RRFScore :=
              1 / (rrfConstantD + (rankOf
                  [⟨⟨"a", "N"⟩, ⟨"b", "V"⟩, "nmod", 3, 2, 1, 5, 7, 0, "f"⟩,
                   ⟨⟨"c", "N"⟩, ⟨"d", "V"⟩, "obj", 4, 1, -1, 6, 8, 0, "g"⟩]
                  (fun y => y.LogDice) x : ℚ))
              + 1 / (rrfConstantD + (rankOf
                  [⟨⟨"a", "N"⟩, ⟨"b", "V"⟩, "nmod", 3, 2, 1, 5, 7, 0, "f"⟩,
                   ⟨⟨"c", "N"⟩, ⟨"d", "V"⟩, "obj", 4, 1, -1, 6, 8, 0, "g"⟩]
                  (fun y => y.LMI) x : ℚ))
              + 1 / (rrfConstantD + (rankOf
                  [⟨⟨"a", "N"⟩, ⟨"b", "V"⟩, "nmod", 3, 2, 1, 5, 7, 0, "f"⟩,
                   ⟨⟨"c", "N"⟩, ⟨"d", "V"⟩, "obj", 4, 1, -1, 6, 8, 0, "g"⟩]
                  (fun y => y.TScore) x : ℚ))
              + 1 / (rrfConstantD + (rankOf
                  [⟨⟨"a", "N"⟩, ⟨"b", "V"⟩, "nmod", 3, 2, 1, 5, 7, 0, "f"⟩,
                   ⟨⟨"c", "N"⟩, ⟨"d", "V"⟩, "obj", 4, 1, -1, 6, 8, 0, "g"⟩]
                  (fun y => y.LogLikelihood) x : ℚ)) })) :=
  rrf_fusion
    [⟨⟨"a", "N"⟩, ⟨"b", "V"⟩, "nmod", 3, 2, 1, 5, 7, 0, "f"⟩,
     ⟨⟨"c", "N"⟩, ⟨"d", "V"⟩, "obj", 4, 1, -1, 6, 8, 0, "g"⟩]
    (by decide) (by decide) (by decide) (by decide) (by decide)
